import Mathlib

/-!
Verification development for the kalosm-llama generation engine
(src/models/kalosm-llama/src/model.rs and src/models/kalosm-llama/src/lib.rs).

The central object is the decode loop `LlamaModel::_infer` (model.rs lines
138-264): it samples tokens, incrementally detokenizes them into text chunks,
matches the decoded text against an optional stop phrase, and emits confirmed
text to the caller-supplied `on_token` sink.  The dispatcher worker thread
(lib.rs lines 124-156) serializes generation requests against the model.

Embedding conventions:
- Rust strings are modelled as `List Char`; the byte-index scan over
  `char_indices` in model.rs line 211 becomes structural recursion over the
  character list (the code only slices at character boundaries).
- Rust `str::to_lowercase` is modelled character-wise by `Char.toLower`
  (the ASCII case mapping; a sufficient model since the matching logic is
  independent of which concrete case-folding function is used).
- The sampler and the detokenizer (`TokenOutputStream`, crate module
  `token_stream`, not part of the sources under analysis) are abstracted as
  an oracle stream of per-iteration results: each loop iteration either
  sampled the model's stop token or obtained `Option<String>` worth of newly
  decoded text from `next_token`.
- The oneshot-channel cancellation check `finished.is_closed()` is modelled
  by a boolean schedule `closed : Nat → Bool` read once per iteration, in
  iteration order, exactly as the `while` condition does.
-/

namespace KalosmLlama

/-- Decoded text, modelling a Rust `String` as its character sequence. -/
abbrev Text := List Char

/-- Model of `str::to_lowercase` (model.rs lines 180 and 198), applied
character-wise. -/
def lowerText (s : Text) : Text := s.map Char.toLower

/-- The needle occurs as a contiguous substring of the haystack. -/
def containsSub (needle hay : Text) : Prop := ∃ i, needle <+: hay.drop i

/-- Executable substring test used to decide `containsSub`. -/
def containsSubB (needle : Text) : Text → Bool
  | [] => needle.isEmpty
  | c :: rest => decide (needle <+: c :: rest) || containsSubB needle rest

instance containsSub_decidable (needle hay : Text) : Decidable (containsSub needle hay) :=
  decidable_of_iff (containsSubB needle hay = true) (by
    induction hay with
    | nil =>
      simp only [containsSub, containsSubB, List.isEmpty_iff, List.drop_nil]
      constructor
      · rintro rfl
        exact ⟨0, List.nil_prefix⟩
      · rintro ⟨i, h⟩
        exact List.prefix_nil.mp h
    | cons c rest ih =>
      simp only [containsSub, containsSubB, Bool.or_eq_true, decide_eq_true_eq] at ih ⊢
      constructor
      · rintro (h | h)
        · exact ⟨0, h⟩
        · obtain ⟨i, h2⟩ := ih.mp h
          exact ⟨i + 1, h2⟩
      · rintro ⟨i, h⟩
        match i with
        | 0 => exact Or.inl h
        | i + 1 => exact Or.inr (ih.mpr ⟨i, h⟩))

/-- Model of `stop_on.strip_prefix(&queued_text_matching_stop_on).unwrap_or(stop_on)`
(model.rs lines 202-204): the stop phrase with the already-buffered prefix
stripped, or the whole stop phrase when the buffer is not one of its prefixes. -/
def stripOr (stop q : Text) : Text :=
  if q <+: stop then stop.drop q.length else stop

/-- Result of the scan loop over the freshly decoded text
(model.rs lines 211-229). -/
inductive ScanOut where
  /-- Some suffix of the text starts with the whole remaining stop phrase
  (model.rs line 218): `consumed` is that suffix, appended to the buffer
  before `break 'generate`. -/
  | full (consumed : Text)
  /-- Some suffix of the text is itself a piece of the remaining stop phrase
  (model.rs line 224): `before` is the lowercased text in front of it
  (model.rs line 225) and `consumed` the suffix appended to the buffer. -/
  | part (before consumed : Text)
  /-- No suffix matched either way: the scan fell off the end of the text. -/
  | noMatch
deriving DecidableEq, Repr

/-- Model of the `for (i, _) in lowercase.char_indices()` scan
(model.rs lines 211-229), taking the suffixes of the lowercased text in
left-to-right order.  `end_of_new_text.starts_with(remaining_stop_on)` is
checked first, then `remaining_stop_on.starts_with(end_of_new_text)`; the
scan stops at the earliest position where either holds. -/
def scanText (remaining : Text) : Text → ScanOut
  | [] => .noMatch
  | c :: rest =>
    if remaining <+: c :: rest then .full (c :: rest)
    else if c :: rest <+: remaining then .part [] (c :: rest)
    else
      match scanText remaining rest with
      | .full s => .full s
      | .part b s => .part (c :: b) s
      | .noMatch => .noMatch

/-- Outcome of one stop-phrase matching step for one decoded chunk. -/
structure StepOut where
  /-- The chunk passed to `on_token` during this step, if any. -/
  emitted : Option Text
  /-- The stop-phrase candidate buffer `queued_text_matching_stop_on` after
  the step. -/
  queued : Text
  /-- Whether the step broke out of the generation loop
  (`break` at model.rs line 208 or `break 'generate` at line 220). -/
  matched : Bool
deriving DecidableEq, Repr

/-- Model of the body of the stop-phrase branch of the decode loop
(model.rs lines 197-240) for one freshly decoded chunk `newText`:
lowercase the chunk (line 198), strip the buffered prefix from the stop
phrase (lines 202-204), break when nothing remains (lines 207-209), scan
(lines 211-229), then either emit the text before a provisional match
(lines 232-234) or fold the buffer into the chunk and emit it
(lines 235-239).  On `break 'generate` (line 220) nothing is emitted. -/
def stepStop (stop q newText : Text) : StepOut :=
  let lc := lowerText newText
  let remaining := stripOr stop q
  if remaining = [] then ⟨none, q, true⟩
  else
    match scanText remaining lc with
    | .full s => ⟨none, q ++ s, true⟩
    | .part b s => ⟨some b, q ++ s, false⟩
    | .noMatch => ⟨some (q ++ newText), [], false⟩

/-- What one iteration of the decode loop observed from the sampler and the
incremental detokenizer (model.rs lines 186-196): either the sampled token
was the model's stop token, or `next_token` returned this much decoded text. -/
inductive IterIn where
  /-- The sampled token equals `stop_token` (model.rs lines 189-192). -/
  | stopTok
  /-- `text_stream.next_token(new_token)` returned this (model.rs line 193). -/
  | decoded (t : Option Text)
deriving DecidableEq, Repr

/-- How the decode loop stopped. -/
inductive ExitK where
  /-- The iteration stream was exhausted (the run is observed up to a finite
  horizon). -/
  | ended
  /-- The cancellation check `finished.is_closed()` returned true
  (model.rs line 185). -/
  | cancelled
  /-- The sampled token was the stop token (model.rs lines 189-192). -/
  | stopTokenHit
  /-- The stop phrase was matched (model.rs line 208 or line 220). -/
  | stopMatched
deriving DecidableEq, Repr

/-- Observable result of the decode loop: the chunks passed to `on_token`
in order, the final candidate buffer, and how the loop stopped. -/
structure RunOut where
  emitted : List Text
  queued : Text
  exitK : ExitK
deriving DecidableEq, Repr

/-- Model of the `'generate: while !finished.is_closed()` loop
(model.rs lines 185-254).  `closed k` is what `finished.is_closed()` returns
at the check opening iteration `k`; it is read exactly once per iteration.
`q` is the candidate buffer `queued_text_matching_stop_on`. -/
def runLoopC (stop? : Option Text) (closed : Nat → Bool) : Nat → Text → List IterIn → RunOut
  | _, q, [] => ⟨[], q, .ended⟩
  | k, q, input :: rest =>
    if closed k then ⟨[], q, .cancelled⟩
    else
      match input with
      | .stopTok => ⟨[], q, .stopTokenHit⟩
      | .decoded none => runLoopC stop? closed (k+1) q rest
      | .decoded (some nt) =>
        match stop? with
        | none =>
          let r := runLoopC none closed (k+1) q rest
          ⟨nt :: r.emitted, r.queued, r.exitK⟩
        | some stop =>
          let s := stepStop stop q nt
          if s.matched then ⟨s.emitted.toList, s.queued, .stopMatched⟩
          else
            let r := runLoopC (some stop) closed (k+1) s.queued rest
            ⟨s.emitted.toList ++ r.emitted, r.queued, r.exitK⟩

/-- The decode loop when the caller never drops the receiver: same as
`runLoopC` with an all-false schedule (proved as `runLoopC_never_closed`). -/
def runLoop (stop? : Option Text) (q : Text) : List IterIn → RunOut
  | [] => ⟨[], q, .ended⟩
  | input :: rest =>
    match input with
    | .stopTok => ⟨[], q, .stopTokenHit⟩
    | .decoded none => runLoop stop? q rest
    | .decoded (some nt) =>
      match stop? with
      | none =>
        let r := runLoop none q rest
        ⟨nt :: r.emitted, r.queued, r.exitK⟩
      | some stop =>
        let s := stepStop stop q nt
        if s.matched then ⟨s.emitted.toList, s.queued, .stopMatched⟩
        else
          let r := runLoop (some stop) s.queued rest
          ⟨s.emitted.toList ++ r.emitted, r.queued, r.exitK⟩

/-- Model of the flush after the loop (model.rs lines 256-261): when a stop
phrase is configured, the buffer is passed to `on_token` unless it starts
with the lowercased stop phrase. -/
def flushEmit (stop? : Option Text) (q : Text) : List Text :=
  match stop? with
  | none => []
  | some stop => if stop <+: q then [] else [q]

/-- All chunks `_infer` passes to the `on_token` sink, in order, for a run
whose stop phrase (if any) is already lowercased. -/
def inferEmissions (stop? : Option Text) (ins : List IterIn) : List Text :=
  let r := runLoop stop? [] ins
  r.emitted ++ flushEmit stop? r.queued

/-- All chunks `_infer` passes to the sink, for the configured stop phrase
exactly as the caller supplied it: model.rs line 180 lowercases it once
before the loop. -/
def inferEmitP (stopOn? : Option Text) (ins : List IterIn) : List Text :=
  inferEmissions (stopOn?.map lowerText) ins

/-- Same as `inferEmissions` but with the cancellation schedule. -/
def inferEmissionsC (stop? : Option Text) (closed : Nat → Bool) (ins : List IterIn) : List Text :=
  let r := runLoopC stop? closed 0 [] ins
  r.emitted ++ flushEmit stop? r.queued

/-- Reference adjustment for stating cancellation: when `cut` is set and
the truncated run merely ran out of iterations, the real loop observed the
closed channel at the next check and exited through the cancellation path. -/
def markCancelled (cut : Bool) (r : RunOut) : RunOut :=
  if cut = true ∧ r.exitK = .ended then ⟨r.emitted, r.queued, .cancelled⟩ else r


/-- Modelled from the spec: the "full decoded text" of the token sequence
processed by the loop, namely the concatenation of everything the
incremental detokenizer yielded before the loop stopped.  (The detokenizer
itself, crate module `token_stream`, is not among the sources; this is the
spec's reference value for claim C7.) -/
def specDecodedText : List IterIn → Text
  | [] => []
  | .stopTok :: _ => []
  | .decoded none :: rest => specDecodedText rest
  | .decoded (some t) :: rest => t ++ specDecodedText rest

/-- The successive values of the candidate buffer
`queued_text_matching_stop_on` after each completed, non-terminal matching
step of the loop (the buffer starts empty at model.rs line 179; a step that
breaks out of the loop is terminal). -/
def queuedTrace (stop q : Text) : List IterIn → List Text
  | [] => []
  | .stopTok :: _ => []
  | .decoded none :: rest => queuedTrace stop q rest
  | .decoded (some nt) :: rest =>
    let s := stepStop stop q nt
    if s.matched then [] else s.queued :: queuedTrace stop s.queued rest

/-- Possible outcomes of one request's work on the dispatcher's worker
thread.  `_infer` returns `Result<(), LlamaModelError>` (captured errors);
`panicked` models a Rust panic unwinding out of the work function — the
worker loop in lib.rs lines 129-150 contains no `catch_unwind`, so a panic
propagates and terminates the thread (standard Rust semantics for
`std::thread::spawn`). -/
inductive ROut where
  | ok
  | err (e : String)
  | panicked
deriving DecidableEq, Repr

/-- Model of the worker loop `while let Some(task) = task_receiver.blocking_recv()`
(lib.rs lines 131-148) restricted to what each request's completion channel
observes: for a task that returns, the result is sent on its oneshot channel
(`_ = finished.send(result)`, line 142) and the loop continues; for a task
that panics, nothing is sent (the sender is dropped during unwind) and the
thread terminates, so no later task is processed or answered. -/
def dispatchRun : List ROut → List (Option ROut)
  | [] => []
  | .panicked :: rest => none :: rest.map (fun _ => none)
  | r :: rest => some r :: dispatchRun rest

/-- A queued unstructured generation request, reduced to what determines its
emitted chunks (lib.rs lines 74-78: settings carry the stop phrase; the
iteration stream stands for prompt, sampler and model behaviour). -/
structure Req where
  stopOn : Option Text
  ins : List IterIn
deriving Repr

/-- The chunks one request's decode loop passes to its sink. -/
def reqEmissions (r : Req) : List Text :=
  inferEmitP r.stopOn r.ins

/-- Model of the worker thread's chunk traffic (lib.rs lines 131-148):
requests are dequeued in FIFO order from the unbounded channel and each
request's `_infer` runs to completion before the next is dequeued; every
chunk is tagged with the index of the request whose sink receives it. -/
def workerEventsFrom (i : Nat) : List Req → List (Nat × Text)
  | [] => []
  | r :: rest => (reqEmissions r).map (fun t => (i, t)) ++ workerEventsFrom (i+1) rest

/-- Ordering used by the top-k restriction: entry `a` ranks at least as
high as entry `b` when its logit value is at least `b`'s. -/
def logitGE (a b : Nat × ℚ) : Prop := b.2 ≤ a.2

instance : DecidableRel logitGE := fun a b => inferInstanceAs (Decidable (b.2 ≤ a.2))

instance : IsTotal (Nat × ℚ) logitGE := ⟨fun a b => le_total b.2 a.2⟩

instance : IsTrans (Nat × ℚ) logitGE := ⟨fun _ _ _ h1 h2 => le_trans h2 h1⟩

/-- Model of `llm_samplers::types::Logits::try_from_iter_top_k(v, k)`
(called at model.rs lines 176 and 252 with k = 512): the logits are paired
with their token ids, sorted by descending logit value, and truncated to the
`k` largest entries.  Logit values are modelled as rationals (`f32` without
NaN; `try_from_iter_top_k` rejects NaN inputs). -/
def topK (k : Nat) (v : List ℚ) : List (Nat × ℚ) :=
  (List.insertionSort logitGE v.enum).take k

/-- The logits the sampler sees at one decode step: the raw forward-pass
output over the token history, restricted to its top 512 entries
(model.rs lines 176-177 for the prompt pass, lines 252-253 for each
incremental pass; the attention cache is modelled by passing the full
history to the forward oracle). -/
def samplerInput (fwd : List Nat → List ℚ) (hist : List Nat) : List (Nat × ℚ) :=
  topK 512 (fwd hist)

/-- The tokens sampled by the first `n` decode steps: each step samples from
`samplerInput` over the history so far (prompt plus previously sampled
tokens), exactly as the loop at model.rs lines 185-254 threads `logits`
from one forward pass to the next `sample_token` call. -/
def genToks (fwd : List Nat → List ℚ) (samp : List (Nat × ℚ) → Nat) (prompt : List Nat) : Nat → List Nat
  | 0 => []
  | n+1 =>
    let prev := genToks fwd samp prompt n
    prev ++ [samp (samplerInput fwd (prompt ++ prev))]

/-- Model of `LlamaModel::forward` (model.rs lines 60-77): bail out with an
error on an empty token sequence before touching the model, otherwise run
the underlying model (the oracle `mf`, standing for `model.forward`). -/
def forwardM (mf : List Nat → List ℚ) (tokens : List Nat) : Except String (List ℚ) :=
  if tokens = [] then .error "Cannot run model on empty input"
  else .ok (mf tokens)

/-- The prompt-processing prologue of `_infer` (model.rs lines 156-175) as
seen by the completion channel: encode the prompt (here: the given token
sequence), run the initial forward pass, and turn its failure into the
request's returned error. -/
def inferPrompt (mf : List Nat → List ℚ) (promptToks : List Nat) : ROut :=
  match forwardM mf promptToks with
  | .error e => .err e
  | .ok _ => .ok

/-! ### Basic lemmas about text, case folding and substring containment -/

theorem charToNat_ofNat_small (n : Nat) (h : n < 55296) : (Char.ofNat n).toNat = n := by
  rw [Char.ofNat, dif_pos (Or.inl h)]
  simp [Char.ofNatAux, Char.toNat, UInt32.toNat]

theorem charToLower_idem (c : Char) : c.toLower.toLower = c.toLower := by
  unfold Char.toLower
  by_cases h : c.toNat ≥ 65 ∧ c.toNat ≤ 90
  · rw [if_pos h]
    have hv : (Char.ofNat (c.toNat + 32)).toNat = c.toNat + 32 := by
      apply charToNat_ofNat_small; omega
    rw [if_neg]
    rw [hv]; omega
  · rw [if_neg h, if_neg h]

theorem lowerText_idem (s : Text) : lowerText (lowerText s) = lowerText s := by
  simp [lowerText, Function.comp_def, charToLower_idem]

theorem lowerText_append (a b : Text) : lowerText (a ++ b) = lowerText a ++ lowerText b := by
  simp [lowerText]

theorem lowerText_take (s : Text) (n : Nat) : lowerText (s.take n) = (lowerText s).take n := by
  simp [lowerText, List.map_take]

theorem lowerText_drop (s : Text) (n : Nat) : lowerText (s.drop n) = (lowerText s).drop n := by
  simp [lowerText, List.map_drop]

theorem lowerText_length (s : Text) : (lowerText s).length = s.length := by
  simp [lowerText]

theorem containsSub_of_append_left {needle A : Text} (B : Text)
    (h : containsSub needle A) : containsSub needle (A ++ B) := by
  obtain ⟨i, h⟩ := h
  refine ⟨i, h.trans ?_⟩
  rw [List.drop_append_eq_append_drop]
  exact List.prefix_append _ _

theorem prefixDrop {x y : Text} (n : Nat) (h : x <+: y) : x.drop n <+: y.drop n := by
  obtain ⟨t, rfl⟩ := h
  rw [List.drop_append_eq_append_drop]
  exact List.prefix_append _ _

theorem prefixAppendSplit {x A B : Text} (h : x <+: A ++ B) (hlen : A.length ≤ x.length) :
    x.drop A.length <+: B := by
  have hx : x = A ++ B.take (x.length - A.length) := by
    have h2 := List.prefix_iff_eq_take.mp h
    rw [List.take_append_eq_append_take, List.take_of_length_le hlen] at h2
    exact h2
  rw [hx, List.drop_append_eq_append_drop, List.drop_length, Nat.sub_self,
    List.drop_zero, List.nil_append]
  exact List.take_prefix _ _

theorem prefix_antisymmEq {x y : Text} (h1 : x <+: y) (h2 : y.length ≤ x.length) : x = y := by
  have h3 := List.prefix_iff_eq_take.mp h1
  rw [h3, List.take_of_length_le h2]

/-! ### Characterizations of the scan loop -/

theorem scanText_noMatch_not_full {remaining : Text} :
    ∀ l : Text, scanText remaining l = .noMatch →
      ∀ i, i < l.length → ¬ remaining <+: l.drop i := by
  intro l
  induction l with
  | nil => intro _ i hi; simp at hi
  | cons c rest ih =>
    intro h i hi
    rw [scanText] at h
    by_cases h1 : remaining <+: c :: rest
    · rw [if_pos h1] at h; exact absurd h (by simp)
    · rw [if_neg h1] at h
      by_cases h2 : c :: rest <+: remaining
      · rw [if_pos h2] at h; exact absurd h (by simp)
      · rw [if_neg h2] at h
        have hrest : scanText remaining rest = .noMatch := by
          cases hs : scanText remaining rest <;> rw [hs] at h <;> simp_all
        match i with
        | 0 => simpa using h1
        | i + 1 =>
          simp only [List.drop_succ_cons]
          exact ih hrest i (by simpa using hi)

theorem scanText_part_spec {remaining : Text} :
    ∀ {l b s : Text}, scanText remaining l = .part b s →
      ∃ i, i < l.length ∧ b = l.take i ∧ s = l.drop i ∧
        s <+: remaining ∧ ¬ remaining <+: s ∧
        ∀ j, j < i → ¬ remaining <+: l.drop j := by
  intro l
  induction l with
  | nil => intro b s h; simp [scanText] at h
  | cons c rest ih =>
    intro b s h
    rw [scanText] at h
    by_cases h1 : remaining <+: c :: rest
    · rw [if_pos h1] at h; exact absurd h (by simp)
    · rw [if_neg h1] at h
      by_cases h2 : c :: rest <+: remaining
      · rw [if_pos h2] at h
        injection h with hb hs
        subst hb; subst hs
        exact ⟨0, by simp, rfl, rfl, h2, h1, by omega⟩
      · rw [if_neg h2] at h
        cases hs : scanText remaining rest <;> rw [hs] at h
        · exact absurd h (by simp)
        · rename_i b' s'
          injection h with hb hs2
          subst hb; subst hs2
          obtain ⟨i, hil, hbt, hsd, hsp, hnf, hfirst⟩ := ih hs
          refine ⟨i + 1, by simpa using hil, by simp [hbt], by simpa using hsd, hsp, hnf, ?_⟩
          intro j hj
          match j with
          | 0 => simpa using h1
          | j + 1 =>
            simp only [List.drop_succ_cons]
            exact hfirst j (by omega)
        · exact absurd h (by simp)

theorem scanText_full_spec {remaining : Text} :
    ∀ {l s : Text}, scanText remaining l = .full s →
      ∃ i, i < l.length ∧ s = l.drop i ∧ remaining <+: s := by
  intro l
  induction l with
  | nil => intro s h; simp [scanText] at h
  | cons c rest ih =>
    intro s h
    rw [scanText] at h
    by_cases h1 : remaining <+: c :: rest
    · rw [if_pos h1] at h
      injection h with hs
      subst hs
      exact ⟨0, by simp, rfl, h1⟩
    · rw [if_neg h1] at h
      by_cases h2 : c :: rest <+: remaining
      · rw [if_pos h2] at h; exact absurd h (by simp)
      · rw [if_neg h2] at h
        cases hs : scanText remaining rest <;> rw [hs] at h
        · rename_i s'
          injection h with hs2
          subst hs2
          obtain ⟨i, hil, hsd, hpre⟩ := ih hs
          exact ⟨i + 1, by simpa using hil, by simpa using hsd, hpre⟩
        · exact absurd h (by simp)
        · exact absurd h (by simp)

/-! ### Facts about stripping the buffered part of the stop phrase -/

theorem stop_ne_nil_of_stripOr {stop q : Text} (h : stripOr stop q ≠ []) : stop ≠ [] := by
  rintro rfl
  apply h
  unfold stripOr
  by_cases hq : q <+: ([] : Text) <;> simp [hq]

theorem stripOr_eq_drop {stop q : Text} (hq : q <+: stop) :
    stripOr stop q = stop.drop q.length := by
  simp [stripOr, hq]

theorem append_stripOr {stop q : Text} (hq : q <+: stop) : q ++ stripOr stop q = stop := by
  rw [stripOr_eq_drop hq]
  conv_rhs => rw [← List.take_append_drop q.length stop]
  congr 1
  exact List.prefix_iff_eq_take.mp hq

theorem length_lt_of_stripOr {stop q : Text} (hq : q <+: stop)
    (hrem : stripOr stop q ≠ []) : q.length < stop.length := by
  rw [stripOr_eq_drop hq] at hrem
  by_contra hle
  exact hrem (List.drop_eq_nil_of_le (by omega))

/-! ### Safety of each emission site of the matching step -/

theorem emitted_noMatch_safe {stop q l : Text} (hq : q <+: stop)
    (hrem : stripOr stop q ≠ [])
    (hscan : scanText (stripOr stop q) l = .noMatch) :
    ¬ containsSub stop (q ++ l) := by
  rintro ⟨t, hocc⟩
  have hkstop : q.length ≤ stop.length := hq.length_le
  have key : ∀ j, stripOr stop q <+: l.drop j → False := by
    intro j hj
    by_cases hjl : j < l.length
    · exact scanText_noMatch_not_full _ hscan j hjl hj
    · rw [List.drop_eq_nil_of_le (by omega)] at hj
      exact hrem (List.prefix_nil.mp hj)
  by_cases ht : t ≤ q.length
  · have hsplit : (q ++ l).drop t = q.drop t ++ l := by
      rw [List.drop_append_eq_append_drop, Nat.sub_eq_zero_of_le ht, List.drop_zero]
    rw [hsplit] at hocc
    have hlen : (q.drop t).length ≤ stop.length := by
      simp only [List.length_drop]; omega
    have h2 := prefixAppendSplit hocc hlen
    have h3 := prefixDrop t h2
    rw [List.drop_drop] at h3
    have harith : (q.drop t).length + t = q.length := by
      simp only [List.length_drop]; omega
    rw [harith, ← stripOr_eq_drop hq] at h3
    exact key t h3
  · have hsplit : (q ++ l).drop t = l.drop (t - q.length) := by
      rw [List.drop_append_eq_append_drop, List.drop_eq_nil_of_le (by omega), List.nil_append]
    rw [hsplit] at hocc
    have h2 := prefixDrop q.length hocc
    rw [List.drop_drop, ← stripOr_eq_drop hq] at h2
    exact key _ h2

theorem emitted_part_safe {stop q l b s : Text} (hq : q <+: stop)
    (hrem : stripOr stop q ≠ [])
    (hscan : scanText (stripOr stop q) l = .part b s) :
    ¬ containsSub stop b := by
  obtain ⟨i, hil, hb, hsd, hsp, hnf, hfirst⟩ := scanText_part_spec hscan
  rintro ⟨t, hocc⟩
  subst hb
  have hlen := hocc.length_le
  simp only [List.length_drop, List.length_take, Nat.min_eq_left (Nat.le_of_lt hil)] at hlen
  have hpos : 0 < stop.length := List.length_pos.mpr (stop_ne_nil_of_stripOr hrem)
  have hti : t + stop.length ≤ i := by omega
  have h1 : stop <+: l.drop t := hocc.trans (prefixDrop t (List.take_prefix i l))
  have h2 := prefixDrop q.length h1
  rw [List.drop_drop, ← stripOr_eq_drop hq] at h2
  have hk : q.length < stop.length := length_lt_of_stripOr hq hrem
  exact hfirst (t + q.length) (by omega) h2

theorem flush_safe {stop q : Text} (hq : q <+: stop) (hne : q ≠ stop) :
    ¬ containsSub stop q := by
  rintro ⟨t, hocc⟩
  have h1 := hocc.length_le
  simp only [List.length_drop] at h1
  have h2 : q.length ≤ stop.length := hq.length_le
  have h3 : q.length ≠ stop.length := fun h =>
    hne (prefix_antisymmEq hq (le_of_eq h.symm))
  omega

/-! ### Buffer invariants across one matching step -/

theorem part_queued_invariant {stop q l b s : Text} (hq : q <+: stop)
    (hscan : scanText (stripOr stop q) l = .part b s) :
    (q ++ s) <+: stop ∧ q ++ s ≠ stop := by
  obtain ⟨i, hil, hb, hsd, hsp, hnf, hfirst⟩ := scanText_part_spec hscan
  constructor
  · have h1 : q ++ s <+: q ++ stripOr stop q := by
      obtain ⟨t, ht⟩ := hsp
      exact ⟨t, by rw [List.append_assoc, ht]⟩
    rwa [append_stripOr hq] at h1
  · intro hcontra
    rw [← append_stripOr hq] at hcontra
    have hss : s = stripOr stop q := List.append_cancel_left hcontra
    exact hnf (hss ▸ List.prefix_refl s)

theorem full_queued_matched {stop q l s : Text} (hq : q <+: stop)
    (hscan : scanText (stripOr stop q) l = .full s) :
    stop <+: q ++ s := by
  obtain ⟨i, hil, hsd, hpre⟩ := scanText_full_spec hscan
  rw [← append_stripOr hq]
  obtain ⟨t, ht⟩ := hpre
  exact ⟨t, by rw [List.append_assoc, ht]⟩

theorem scan_lower_closed {q nt b s : Text} (R : Text) (hlow : lowerText q = q)
    (hscan : scanText R (lowerText nt) = .part b s) :
    lowerText (q ++ s) = q ++ s ∧ lowerText b = b := by
  obtain ⟨i, hil, hb, hsd, hsp, hnf, hfirst⟩ := scanText_part_spec hscan
  subst hb; subst hsd
  constructor
  · rw [lowerText_append, hlow, lowerText_drop, lowerText_idem]
  · rw [lowerText_take, lowerText_idem]

/-! ### The main loop invariant -/

/-- While the loop runs, the candidate buffer stays a proper, already
lowercased, prefix of the stop phrase; every chunk passed to the sink is
free of the stop phrase (case-insensitively); and when the loop breaks out
through a match, the buffer has absorbed the whole stop phrase. -/
theorem runLoop_invariant (stop : Text) :
    ∀ (ins : List IterIn) (q : Text), q <+: stop → q ≠ stop → lowerText q = q →
      (∀ e ∈ (runLoop (some stop) q ins).emitted, ¬ containsSub stop (lowerText e))
      ∧ ((runLoop (some stop) q ins).exitK ≠ .stopMatched →
          (runLoop (some stop) q ins).queued <+: stop
          ∧ (runLoop (some stop) q ins).queued ≠ stop
          ∧ lowerText (runLoop (some stop) q ins).queued = (runLoop (some stop) q ins).queued)
      ∧ ((runLoop (some stop) q ins).exitK = .stopMatched →
          stop <+: (runLoop (some stop) q ins).queued) := by
  intro ins
  induction ins with
  | nil =>
    intro q hq hne hlow
    refine ⟨by simp [runLoop], fun _ => ⟨hq, hne, hlow⟩, fun h => ?_⟩
    simp [runLoop] at h
  | cons input rest ih =>
    intro q hq hne hlow
    cases input with
    | stopTok =>
      refine ⟨by simp [runLoop], fun _ => ⟨hq, hne, hlow⟩, fun h => ?_⟩
      simp [runLoop] at h
    | decoded t =>
      cases t with
      | none => simpa [runLoop] using ih q hq hne hlow
      | some nt =>
        by_cases hrem : stripOr stop q = []
        · exfalso
          rw [stripOr_eq_drop hq] at hrem
          have hlen : stop.length ≤ q.length := by
            by_contra hlt
            exact absurd hrem (by simp [List.drop_eq_nil_iff]; omega)
          exact hne (prefix_antisymmEq hq hlen)
        · cases hscan : scanText (stripOr stop q) (lowerText nt) with
          | full s =>
            have hstep : stepStop stop q nt = ⟨none, q ++ s, true⟩ := by
              rw [stepStop]
              rw [if_neg hrem, hscan]
            have hrun : runLoop (some stop) q (.decoded (some nt) :: rest)
                = ⟨[], q ++ s, .stopMatched⟩ := by
              rw [runLoop, hstep]
              simp
            rw [hrun]
            refine ⟨by simp, fun h => absurd rfl h, fun _ => ?_⟩
            exact full_queued_matched hq hscan
          | part b s =>
            have hstep : stepStop stop q nt = ⟨some b, q ++ s, false⟩ := by
              rw [stepStop]
              rw [if_neg hrem, hscan]
            obtain ⟨hq2, hne2⟩ := part_queued_invariant hq hscan
            obtain ⟨hlow2, hlowb⟩ := scan_lower_closed (stripOr stop q) hlow hscan
            obtain ⟨ihe, ihq, ihm⟩ := ih (q ++ s) hq2 hne2 hlow2
            have hrun : runLoop (some stop) q (.decoded (some nt) :: rest)
                = ⟨b :: (runLoop (some stop) (q ++ s) rest).emitted,
                   (runLoop (some stop) (q ++ s) rest).queued,
                   (runLoop (some stop) (q ++ s) rest).exitK⟩ := by
              rw [runLoop, hstep]
              simp
            rw [hrun]
            refine ⟨?_, ihq, ihm⟩
            intro e he
            rcases List.mem_cons.mp he with rfl | he2
            · rw [hlowb]
              exact emitted_part_safe hq hrem hscan
            · exact ihe e he2
          | noMatch =>
            have hstep : stepStop stop q nt = ⟨some (q ++ nt), [], false⟩ := by
              rw [stepStop]
              rw [if_neg hrem, hscan]
            have hsne : stop ≠ [] := stop_ne_nil_of_stripOr hrem
            obtain ⟨ihe, ihq, ihm⟩ := ih [] stop.nil_prefix (fun h => hsne h.symm) rfl
            have hrun : runLoop (some stop) q (.decoded (some nt) :: rest)
                = ⟨(q ++ nt) :: (runLoop (some stop) [] rest).emitted,
                   (runLoop (some stop) [] rest).queued,
                   (runLoop (some stop) [] rest).exitK⟩ := by
              rw [runLoop, hstep]
              simp
            rw [hrun]
            refine ⟨?_, ihq, ihm⟩
            intro e he
            rcases List.mem_cons.mp he with rfl | he2
            · rw [lowerText_append, hlow]
              exact emitted_noMatch_safe hq hrem hscan
            · exact ihe e he2

/-- With an empty stop phrase the loop emits nothing and the buffer stays
empty (the first decoded chunk hits the `remaining_stop_on.is_empty()`
break at model.rs lines 207-209). -/
theorem runLoop_nil_stop (ins : List IterIn) :
    (runLoop (some []) [] ins).emitted = [] ∧ (runLoop (some []) [] ins).queued = [] := by
  induction ins with
  | nil => simp [runLoop]
  | cons input rest ih =>
    cases input with
    | stopTok => simp [runLoop]
    | decoded t =>
      cases t with
      | none => simpa [runLoop] using ih
      | some nt =>
        have hstep : stepStop [] [] nt = ⟨none, [], true⟩ := by
          rw [stepStop]
          simp [stripOr]
        rw [runLoop, hstep]
        simp

/-! ### Claim C1 -/

/-- C1, counterexample: with stop phrase "ab" and decoded chunks "a", "a",
"b", the concatenation of the chunks passed to the sink is "aab" (the
buffered "a" is folded back and emitted when the second "a" fails to
continue the match, and the final "b" then completes the phrase in the
output), so the emitted concatenation contains the stop phrase
case-insensitively; moreover the loop never signals a match at all
(exit is `ended`), so emission does not cease. -/
theorem stopPhrase_concat_violation :
    containsSub (lowerText "ab".toList)
        (lowerText (inferEmitP (some "ab".toList)
          [.decoded (some "a".toList), .decoded (some "a".toList),
           .decoded (some "b".toList)]).flatten)
      ∧ (runLoop (some (lowerText "ab".toList)) []
          [.decoded (some "a".toList), .decoded (some "a".toList),
           .decoded (some "b".toList)]).exitK = .ended := by
  constructor
  · decide
  · decide

/-- C1 (amended): for every configured stop phrase P and every run of the
decode loop, no SINGLE chunk passed to the `on_token` sink contains P as a
substring under case-insensitive comparison; and once P is matched, no
further chunk (in particular nothing from the final flush) is passed to the
sink.  (The original claim also covered concatenations of chunks; that part
is refuted by `stopPhrase_concat_violation`.) -/
theorem stopPhrase_chunkwise_safety (P : Text) (ins : List IterIn) :
    (∀ e ∈ inferEmitP (some P) ins, ¬ containsSub (lowerText P) (lowerText e))
    ∧ ((runLoop (some (lowerText P)) [] ins).exitK = .stopMatched →
        inferEmitP (some P) ins = (runLoop (some (lowerText P)) [] ins).emitted) := by
  have hEmit : inferEmitP (some P) ins
      = (runLoop (some (lowerText P)) [] ins).emitted
        ++ flushEmit (some (lowerText P)) (runLoop (some (lowerText P)) [] ins).queued := rfl
  by_cases hnil : lowerText P = []
  · rw [hnil] at hEmit
    obtain ⟨he, hqd⟩ := runLoop_nil_stop ins
    rw [he, hqd] at hEmit
    have hfl : flushEmit (some ([] : Text)) [] = [] := by simp [flushEmit]
    rw [hfl] at hEmit
    constructor
    · intro e hee
      rw [hEmit] at hee
      simp at hee
    · intro _
      rw [hEmit, hnil, he]
      simp
  · obtain ⟨hemit, hnm, hm⟩ := runLoop_invariant (lowerText P) ins []
      List.nil_prefix (fun h => hnil h.symm) rfl
    constructor
    · intro e he
      rw [hEmit] at he
      rcases List.mem_append.mp he with he1 | he2
      · exact hemit e he1
      · by_cases hpre : lowerText P <+: (runLoop (some (lowerText P)) [] ins).queued
        · simp [flushEmit, hpre] at he2
        · simp only [flushEmit, if_neg hpre, List.mem_singleton] at he2
          subst he2
          by_cases hex : (runLoop (some (lowerText P)) [] ins).exitK = .stopMatched
          · exact absurd (hm hex) hpre
          · obtain ⟨hq2, hne2, hlow2⟩ := hnm hex
            rw [hlow2]
            exact flush_safe hq2 hne2
    · intro hmt
      rw [hEmit]
      have hq := hm hmt
      simp [flushEmit, hq]

/-- Witness for `stopPhrase_chunkwise_safety`: with stop phrase "b" and
chunks "x" then "ab", the chunk "x" is emitted and is stop-phrase free, the
loop exits through a match, and the flush adds nothing. -/
theorem stopPhrase_chunkwise_safety_witness :
    (¬ containsSub (lowerText "b".toList) (lowerText "x".toList))
    ∧ inferEmitP (some "b".toList)
        [.decoded (some "x".toList), .decoded (some "ab".toList)]
      = (runLoop (some (lowerText "b".toList)) []
          [.decoded (some "x".toList), .decoded (some "ab".toList)]).emitted := by
  refine ⟨(stopPhrase_chunkwise_safety "b".toList
      [.decoded (some "x".toList), .decoded (some "ab".toList)]).1 "x".toList (by decide),
    (stopPhrase_chunkwise_safety "b".toList
      [.decoded (some "x".toList), .decoded (some "ab".toList)]).2 (by decide)⟩

/-! ### Claim C2 -/

/-- C2, counterexample: with stop phrase "st" and a single decoded chunk
"ast", the scan finds the full match at character position 1, but the
`break 'generate` at model.rs line 220 skips the emission `match` entirely:
the text "a" before the match position is never passed to the sink (the run
emits nothing at all), contradicting the claim that it is confirmed output
and emitted. -/
theorem fullMatch_before_text_lost :
    inferEmitP (some "st".toList) [.decoded (some "ast".toList)] = [] := by
  decide

/-- C2 (amended): when the scan of a newly decoded chunk finds a position
whose suffix fully contains the remaining stop-phrase text, the decode loop
signals completion and discards the ENTIRE chunk — including the text
before that position, which is not emitted; the suffix is absorbed into the
buffer and the flush stays silent. -/
theorem fullMatch_discards_whole_chunk (stop q nt s : Text) (rest : List IterIn)
    (hq : q <+: stop) (hrem : stripOr stop q ≠ [])
    (hscan : scanText (stripOr stop q) (lowerText nt) = .full s) :
    runLoop (some stop) q (.decoded (some nt) :: rest) = ⟨[], q ++ s, .stopMatched⟩
    ∧ flushEmit (some stop) (q ++ s) = [] := by
  have hstep : stepStop stop q nt = ⟨none, q ++ s, true⟩ := by
    rw [stepStop]
    rw [if_neg hrem, hscan]
  constructor
  · rw [runLoop, hstep]
    simp
  · simp [flushEmit, full_queued_matched hq hscan]

/-- Witness for `fullMatch_discards_whole_chunk`: stop phrase "st", chunk
"ast"; the loop result keeps nothing of the chunk. -/
theorem fullMatch_discards_whole_chunk_witness :
    runLoop (some "st".toList) [] [.decoded (some "ast".toList)]
      = ⟨[], [] ++ "st".toList, .stopMatched⟩
    ∧ flushEmit (some "st".toList) ([] ++ "st".toList) = [] :=
  fullMatch_discards_whole_chunk "st".toList [] "ast".toList "st".toList []
    (by decide) (by decide) (by decide)

/-! ### Claim C3 -/

/-- The candidate buffer stays a prefix of the stop phrase at every
non-terminal step boundary of the loop. -/
theorem queuedTrace_isPre (stop : Text) :
    ∀ (ins : List IterIn) (q : Text), q <+: stop →
      ∀ x ∈ queuedTrace stop q ins, x <+: stop := by
  intro ins
  induction ins with
  | nil => intro q _ x hx; simp [queuedTrace] at hx
  | cons input rest ih =>
    intro q hq x hx
    cases input with
    | stopTok => simp [queuedTrace] at hx
    | decoded t =>
      cases t with
      | none => exact ih q hq x (by simpa [queuedTrace] using hx)
      | some nt =>
        by_cases hrem : stripOr stop q = []
        · have hstep : stepStop stop q nt = ⟨none, q, true⟩ := by
            rw [stepStop, if_pos hrem]
          simp [queuedTrace, hstep] at hx
        · cases hscan : scanText (stripOr stop q) (lowerText nt) with
          | full s =>
            have hstep : stepStop stop q nt = ⟨none, q ++ s, true⟩ := by
              rw [stepStop]
              rw [if_neg hrem, hscan]
            simp [queuedTrace, hstep] at hx
          | part b s =>
            have hstep : stepStop stop q nt = ⟨some b, q ++ s, false⟩ := by
              rw [stepStop]
              rw [if_neg hrem, hscan]
            have hq2 := (part_queued_invariant hq hscan).1
            simp only [queuedTrace, hstep] at hx
            simp at hx
            rcases hx with rfl | hx2
            · exact hq2
            · exact ih (q ++ s) hq2 x hx2
          | noMatch =>
            have hstep : stepStop stop q nt = ⟨some (q ++ nt), [], false⟩ := by
              rw [stepStop]
              rw [if_neg hrem, hscan]
            simp only [queuedTrace, hstep] at hx
            simp at hx
            rcases hx with rfl | hx2
            · exact List.nil_prefix
            · exact ih [] List.nil_prefix x hx2

/-- C3, counterexample: with stop phrase "ab" and decoded chunk "abc", the
full-match step at model.rs line 219 appends the whole matching suffix
(including the trailing "c") to the buffer, so right after that step —
still inside `_infer`, before the flush check — the buffer has length 3,
exceeding the stop phrase's length 2. -/
theorem stopBuffer_exceeds_at_match :
    ("ab".toList).length
      < (runLoop (some (lowerText "ab".toList)) []
          [.decoded (some "abc".toList)]).queued.length := by
  decide

/-- C3 (amended): at every step boundary at which the decode loop
continues (i.e. at every point of the matching other than the terminal
full-match step, whose buffer content is discarded, never emitted), the
candidate buffer's length never exceeds the length of the configured stop
phrase P. -/
theorem stopBuffer_length_bound (P : Text) (ins : List IterIn) :
    ∀ x ∈ queuedTrace (lowerText P) [] ins, x.length ≤ P.length := by
  intro x hx
  have h := queuedTrace_isPre (lowerText P) ins [] List.nil_prefix x hx
  have h2 := h.length_le
  rwa [lowerText_length] at h2

/-- Witness for `stopBuffer_length_bound`: stop phrase "ab", chunk "a";
the buffer "a" after the first step satisfies the bound. -/
theorem stopBuffer_length_bound_witness :
    ("a".toList).length ≤ ("ab".toList).length :=
  stopBuffer_length_bound "ab".toList [.decoded (some "a".toList)] "a".toList (by decide)

/-! ### Claim C4 -/

/-- C4, counterexample: the chunk "He" is held back as a candidate for stop
phrase "hello" (the step emits only the empty confirmed chunk ""), and when
the request ends unmatched the flush passes "he" to the sink — the
lowercased form, not the decoded text "He" that was held back, so the flush
is not verbatim. -/
theorem heldBack_not_flushed_verbatim :
    inferEmitP (some "hello".toList) [.decoded (some "He".toList)] = [[], "he".toList]
    ∧ "he".toList ≠ "He".toList := by
  decide

/-- C4 (amended): buffered text is never emitted while it is a live
candidate; when the run ends without the phrase having been matched, the
sink receives, after the in-loop chunks, exactly one flush chunk equal to
the final buffer — which holds the LOWERCASED form of the held-back decoded
text (so the flush is lowercase-faithful, not verbatim). -/
theorem unmatchedBuffer_flushed_lowercased (P : Text) (ins : List IterIn)
    (hP : P ≠ [])
    (hnm : (runLoop (some (lowerText P)) [] ins).exitK ≠ .stopMatched) :
    inferEmitP (some P) ins
      = (runLoop (some (lowerText P)) [] ins).emitted
        ++ [(runLoop (some (lowerText P)) [] ins).queued]
    ∧ lowerText (runLoop (some (lowerText P)) [] ins).queued
      = (runLoop (some (lowerText P)) [] ins).queued := by
  have hnil : lowerText P ≠ [] := by
    intro h
    exact hP (by simpa [lowerText] using h)
  obtain ⟨hemit, hnmI, hm⟩ := runLoop_invariant (lowerText P) ins []
    List.nil_prefix (fun h => hnil h.symm) rfl
  obtain ⟨hq2, hne2, hlow2⟩ := hnmI hnm
  have hpre : ¬ lowerText P <+: (runLoop (some (lowerText P)) [] ins).queued := by
    intro hc
    exact hne2 (prefix_antisymmEq hq2 hc.length_le)
  refine ⟨?_, hlow2⟩
  simp [inferEmitP, inferEmissions, flushEmit, hpre]

/-- Witness for `unmatchedBuffer_flushed_lowercased` at stop phrase "hello"
and the single held-back chunk "He". -/
theorem unmatchedBuffer_flushed_lowercased_witness :
    inferEmitP (some "hello".toList) [.decoded (some "He".toList)]
      = (runLoop (some (lowerText "hello".toList)) [] [.decoded (some "He".toList)]).emitted
        ++ [(runLoop (some (lowerText "hello".toList)) [] [.decoded (some "He".toList)]).queued]
    ∧ lowerText (runLoop (some (lowerText "hello".toList)) [] [.decoded (some "He".toList)]).queued
      = (runLoop (some (lowerText "hello".toList)) [] [.decoded (some "He".toList)]).queued :=
  unmatchedBuffer_flushed_lowercased "hello".toList [.decoded (some "He".toList)]
    (by decide) (by decide)

/-! ### Claim C7 -/

/-- With no stop phrase configured, the loop emits every decoded chunk as
it arrives. -/
theorem runLoop_none_emitted (q : Text) :
    ∀ ins : List IterIn, (runLoop none q ins).emitted.flatten = specDecodedText ins := by
  intro ins
  induction ins with
  | nil => simp [runLoop, specDecodedText]
  | cons input rest ih =>
    cases input with
    | stopTok => simp [runLoop, specDecodedText]
    | decoded t =>
      cases t with
      | none => simpa [runLoop, specDecodedText] using ih
      | some nt =>
        simp only [runLoop, List.flatten_cons, specDecodedText]
        rw [ih]

/-- C7: with no stop phrase configured, the concatenation of all chunks
passed to the `on_token` sink equals the full decoded text of the sampled
token sequence — no text lost, none duplicated. -/
theorem noStop_concat_exact (ins : List IterIn) :
    (inferEmitP none ins).flatten = specDecodedText ins := by
  have h : inferEmitP none ins = (runLoop none [] ins).emitted := by
    simp [inferEmitP, inferEmissions, flushEmit]
  rw [h, runLoop_none_emitted]

/-! ### Claim C6: cooperative cancellation -/

theorem markCancelled_wrap (b : Bool) (E : List Text) (r : RunOut) :
    markCancelled b ⟨E ++ r.emitted, r.queued, r.exitK⟩
      = ⟨E ++ (markCancelled b r).emitted, (markCancelled b r).queued,
         (markCancelled b r).exitK⟩ := by
  by_cases hc : b = true ∧ r.exitK = .ended
  · simp [markCancelled, hc]
  · simp [markCancelled, hc]

/-- The loop with an all-false schedule is the plain loop: the cancellation
check alone never alters a run whose receiver is kept open. -/
theorem runLoopC_never_closed (stop? : Option Text) :
    ∀ (ins : List IterIn) (k : Nat) (q : Text),
      runLoopC stop? (fun _ => false) k q ins = runLoop stop? q ins := by
  intro ins
  induction ins with
  | nil => intro k q; rfl
  | cons input rest ih =>
    intro k q
    cases input with
    | stopTok => simp [runLoopC, runLoop]
    | decoded t =>
      cases t with
      | none => simp [runLoopC, runLoop, ih]
      | some nt =>
        cases stop? with
        | none => simp [runLoopC, runLoop, ih]
        | some stop => simp [runLoopC, runLoop, ih]

/-- C6: cancellation is cooperative and observed at the single
`finished.is_closed()` poll that opens each iteration.  If the receiver is
dropped so that the poll reads open for the first `n` checks and closed
from check `n` on, the run is exactly the plain run over the first `n`
iterations: the iteration in progress when the drop happens completes (at
most one decode step of extra work), no later iteration's sampling,
decoding or forward pass is performed, and the loop exits through the
cancellation path — not an error — unless it had already stopped on its
own. -/
theorem cancellation_truncates (stop? : Option Text) :
    ∀ (ins : List IterIn) (n k : Nat) (q : Text) (closed : Nat → Bool),
      (∀ j, j < n → closed (k + j) = false) → closed (k + n) = true →
      runLoopC stop? closed k q ins
        = markCancelled (decide (n < ins.length)) (runLoop stop? q (ins.take n)) := by
  intro ins
  induction ins with
  | nil =>
    intro n k q closed h1 h2
    simp [runLoopC, runLoop, markCancelled]
  | cons input rest ih =>
    intro n k q closed h1 h2
    match n with
    | 0 =>
      have hck : closed k = true := by simpa using h2
      simp only [runLoopC]
      rw [if_pos hck]
      simp [runLoop, markCancelled]
    | n + 1 =>
      have hck0 : closed (k + 0) = false := h1 0 (by omega)
      rw [Nat.add_zero] at hck0
      have hck : ¬ closed k = true := by simp [hck0]
      have h1' : ∀ j, j < n → closed (k + 1 + j) = false := by
        intro j hj
        have h3 := h1 (j + 1) (by omega)
        rwa [show k + (j + 1) = k + 1 + j by omega] at h3
      have h2' : closed (k + 1 + n) = true := by
        rwa [show k + (n + 1) = k + 1 + n by omega] at h2
      simp only [runLoopC]
      rw [if_neg hck]
      cases input with
      | stopTok =>
        simp [runLoop, markCancelled, List.take_succ_cons]
      | decoded t =>
        cases t with
        | none =>
          rw [ih n (k+1) q closed h1' h2', List.take_succ_cons]
          rw [show runLoop stop? q (.decoded none :: rest.take n)
              = runLoop stop? q (rest.take n) from rfl]
          simp
        | some nt =>
          cases stop? with
          | none =>
            rw [ih n (k+1) q closed h1' h2', List.take_succ_cons]
            rw [runLoop]
            have hlen : decide (n + 1 < (IterIn.decoded (some nt) :: rest).length)
                = decide (n < rest.length) := by simp
            rw [hlen]
            rw [show (IterIn.decoded (some nt)) = IterIn.decoded (some nt) from rfl]
            have hw := markCancelled_wrap (decide (n < rest.length)) [nt]
              (runLoop none q (rest.take n))
            simp only [List.singleton_append] at hw
            rw [hw]
          | some stop =>
            rw [List.take_succ_cons]
            have hlen : decide (n + 1 < (IterIn.decoded (some nt) :: rest).length)
                = decide (n < rest.length) := by simp
            rw [hlen]
            by_cases hm : (stepStop stop q nt).matched = true
            · rw [runLoop]
              simp only [hm, if_true]
              simp [markCancelled]
            · rw [runLoop]
              simp only [hm, if_false, Bool.false_eq_true]
              rw [ih n (k+1) (stepStop stop q nt).queued closed h1' h2']
              exact (markCancelled_wrap (decide (n < rest.length))
                (stepStop stop q nt).emitted.toList
                (runLoop (some stop) (stepStop stop q nt).queued (rest.take n))).symm

/-- Witness for `cancellation_truncates`: the receiver is dropped so the
poll reads closed from check 2 on; with three decoded chunks queued, the
run equals the plain run over the first two chunks, marked cancelled. -/
theorem cancellation_truncates_witness :
    runLoopC none (fun j => decide (2 ≤ j)) 0 []
        [.decoded (some "a".toList), .decoded (some "b".toList), .decoded (some "c".toList)]
      = markCancelled
          (decide (2 < ([.decoded (some "a".toList), .decoded (some "b".toList),
            .decoded (some "c".toList)] : List IterIn).length))
          (runLoop none []
            (([.decoded (some "a".toList), .decoded (some "b".toList),
              .decoded (some "c".toList)] : List IterIn).take 2)) :=
  cancellation_truncates none
    [.decoded (some "a".toList), .decoded (some "b".toList), .decoded (some "c".toList)]
    2 0 [] (fun j => decide (2 ≤ j)) (by decide) (by decide)

/-! ### Claim C5: the dispatcher worker and request failures -/

/-- C5, counterexample: a work function that panics does NOT get its error
captured and delivered — nothing is sent on its completion channel — and
the worker thread dies, so a subsequent healthy request is never processed
either.  The worker loop (lib.rs lines 129-150) has no `catch_unwind`: only
`Result` errors are captured (line 142). -/
theorem panicked_task_kills_worker :
    dispatchRun [ROut.panicked, ROut.ok] = [none, none] := by
  decide

/-- C5 (amended): if a request's work function returns an error (or
succeeds), the result — error included — is delivered to the caller
through the request's oneshot channel and the worker continues dequeuing
and processing every subsequent request; this does NOT extend to panics,
which are uncaught and terminate the worker thread. -/
theorem dispatch_delivers_all_results (ts : List ROut) (h : ROut.panicked ∉ ts) :
    dispatchRun ts = ts.map some := by
  induction ts with
  | nil => rfl
  | cons r rest ih =>
    have hrest : ROut.panicked ∉ rest := fun hm => h (List.mem_cons_of_mem _ hm)
    cases r with
    | ok => simp [dispatchRun, ih hrest]
    | err e => simp [dispatchRun, ih hrest]
    | panicked => exact absurd (List.mem_cons_self _ _) h

/-- Witness for `dispatch_delivers_all_results`: an erroring request
followed by a successful one; both results are delivered. -/
theorem dispatch_delivers_all_results_witness :
    dispatchRun [ROut.err "boom", ROut.ok]
      = ([ROut.err "boom", ROut.ok] : List ROut).map some :=
  dispatch_delivers_all_results [ROut.err "boom", ROut.ok] (by decide)

/-! ### Claim C9: FIFO processing and non-interleaving -/

theorem workerEventsFrom_tag_ge (reqs : List Req) :
    ∀ (i0 : Nat), ∀ p ∈ workerEventsFrom i0 reqs, i0 ≤ p.1 := by
  induction reqs with
  | nil => intro i0 p hp; simp [workerEventsFrom] at hp
  | cons r rest ih =>
    intro i0 p hp
    rw [workerEventsFrom] at hp
    rcases List.mem_append.mp hp with h1 | h2
    · obtain ⟨t, _, rfl⟩ := List.mem_map.mp h1
      exact le_refl i0
    · exact le_trans (Nat.le_succ i0) (ih (i0 + 1) p h2)

theorem constMap_pairwise_le (l : List Text) (c : Nat) :
    ((l.map fun t => (c, t)).map Prod.fst).Pairwise (fun a b => a ≤ b) := by
  induction l with
  | nil => simp
  | cons x xs ih =>
    refine List.Pairwise.cons ?_ ih
    intro b hb
    simp only [List.map_map, List.mem_map] at hb
    obtain ⟨t, _, rfl⟩ := hb
    exact le_refl c

theorem workerEventsFrom_sorted (reqs : List Req) :
    ∀ i0 : Nat, ((workerEventsFrom i0 reqs).map Prod.fst).Pairwise (fun a b => a ≤ b) := by
  induction reqs with
  | nil => intro i0; simp [workerEventsFrom]
  | cons r rest ih =>
    intro i0
    rw [workerEventsFrom, List.map_append]
    rw [List.pairwise_append]
    refine ⟨constMap_pairwise_le (reqEmissions r) i0, ih (i0 + 1), ?_⟩
    intro a ha b hb
    obtain ⟨p, hp, rfl⟩ := List.mem_map.mp ha
    obtain ⟨pp, hpp, rfl⟩ := List.mem_map.mp hb
    obtain ⟨t, _, rfl⟩ := List.mem_map.mp hp
    exact le_trans (Nat.le_succ i0) (workerEventsFrom_tag_ge rest (i0 + 1) pp hpp)

theorem workerEventsFrom_filter (reqs : List Req) :
    ∀ (i0 i : Nat),
      (workerEventsFrom i0 reqs).filterMap
          (fun p => if p.1 = i0 + i then some p.2 else none)
        = (reqs[i]?).elim [] reqEmissions := by
  induction reqs with
  | nil => intro i0 i; simp [workerEventsFrom]
  | cons r rest ih =>
    intro i0 i
    rw [workerEventsFrom, List.filterMap_append]
    cases i with
    | zero =>
      have h1 : (List.map (fun t => (i0, t)) (reqEmissions r)).filterMap
          (fun p => if p.1 = i0 + 0 then some p.2 else none) = reqEmissions r := by
        rw [List.filterMap_map]
        simp [Function.comp_def]
      have h2 : (workerEventsFrom (i0 + 1) rest).filterMap
          (fun p => if p.1 = i0 + 0 then some p.2 else none) = [] := by
        rw [List.filterMap_eq_nil_iff]
        intro p hp
        have := workerEventsFrom_tag_ge rest (i0 + 1) p hp
        simp only [ite_eq_right_iff]
        intro he
        omega
      rw [h1, h2]
      simp
    | succ i =>
      have h1 : (List.map (fun t => (i0, t)) (reqEmissions r)).filterMap
          (fun p => if p.1 = i0 + (i + 1) then some p.2 else none) = [] := by
        rw [List.filterMap_map, List.filterMap_eq_nil_iff]
        intro p hp
        simp [Function.comp_def]
      have h2 := ih (i0 + 1) i
      rw [h1, List.nil_append]
      rw [show i0 + (i + 1) = i0 + 1 + i by omega, h2]
      simp

/-- C9: requests submitted to one dispatcher are started and run in FIFO
submission order, each to completion before the next: the worker's chunk
stream is exactly request 0's chunks, then request 1's, and so on.  Hence
the chunks carrying tag `i` are precisely request `i`'s emissions in their
generation order, and the tags appear in non-decreasing order — chunks of
different requests never interleave. -/
theorem worker_fifo_no_interleave (reqs : List Req) :
    ((workerEventsFrom 0 reqs).map Prod.fst).Pairwise (fun a b => a ≤ b)
    ∧ ∀ i : Nat,
        (workerEventsFrom 0 reqs).filterMap
            (fun p => if p.1 = i then some p.2 else none)
          = (reqs[i]?).elim [] reqEmissions := by
  refine ⟨workerEventsFrom_sorted reqs 0, fun i => ?_⟩
  have h := workerEventsFrom_filter reqs 0 i
  simpa using h

/-! ### Claim C10: empty token sequences -/

/-- C10: the forward wrapper rejects an empty token sequence with an error
— for EVERY underlying model oracle, so the model itself is never consulted
— and a request whose prompt encodes to zero tokens therefore returns that
error, which the worker delivers through the request's completion channel
instead of running a forward pass. -/
theorem forward_empty_rejected (mf mf2 : List Nat → List ℚ) :
    forwardM mf [] = .error "Cannot run model on empty input"
    ∧ forwardM mf [] = forwardM mf2 []
    ∧ inferPrompt mf [] = .err "Cannot run model on empty input"
    ∧ dispatchRun [inferPrompt mf []]
        = [some (.err "Cannot run model on empty input")] := by
  refine ⟨rfl, rfl, rfl, rfl⟩

/-! ### Claim C8: top-512 logit restriction -/

theorem topK_length (k : Nat) (v : List ℚ) : (topK k v).length ≤ k := by
  simp only [topK, List.length_take]
  exact min_le_left _ _

theorem topK_subset (k : Nat) (v : List ℚ) : ∀ p ∈ topK k v, p ∈ v.enum := by
  intro p hp
  have h1 : p ∈ List.insertionSort logitGE v.enum := List.mem_of_mem_take hp
  exact (List.perm_insertionSort logitGE v.enum).mem_iff.mp h1

theorem topK_dominates (k : Nat) (v : List ℚ) :
    ∀ p ∈ v.enum, p ∉ topK k v → ∀ pq ∈ topK k v, p.2 ≤ pq.2 := by
  intro p hp hnp pq hq
  have hsorted : (List.insertionSort logitGE v.enum).Pairwise logitGE :=
    List.sorted_insertionSort logitGE v.enum
  have hps : p ∈ List.insertionSort logitGE v.enum :=
    (List.perm_insertionSort logitGE v.enum).mem_iff.mpr hp
  rw [← List.take_append_drop k (List.insertionSort logitGE v.enum)] at hsorted hps
  have hpd : p ∈ (List.insertionSort logitGE v.enum).drop k := by
    rcases List.mem_append.mp hps with h | h
    · exact absurd h hnp
    · exact h
  exact (List.pairwise_append.mp hsorted).2.2 pq hq p hpd

/-- C8: at every decode step — the initial pass over the prompt (n = 0)
and every incremental pass — the logits handed to the sampler are exactly
the forward output restricted to its top-512 entries: at most 512 entries,
all drawn from the forward output, and every forward-output entry left out
has a logit no larger than any entry the sampler sees. -/
theorem topK512_pipeline (fwd : List Nat → List ℚ) (samp : List (Nat × ℚ) → Nat)
    (prompt : List Nat) (n : Nat) :
    genToks fwd samp prompt (n+1)
      = genToks fwd samp prompt n
        ++ [samp (samplerInput fwd (prompt ++ genToks fwd samp prompt n))]
    ∧ samplerInput fwd (prompt ++ genToks fwd samp prompt n)
        = topK 512 (fwd (prompt ++ genToks fwd samp prompt n))
    ∧ (samplerInput fwd (prompt ++ genToks fwd samp prompt n)).length ≤ 512
    ∧ (∀ p ∈ samplerInput fwd (prompt ++ genToks fwd samp prompt n),
        p ∈ (fwd (prompt ++ genToks fwd samp prompt n)).enum)
    ∧ (∀ p ∈ (fwd (prompt ++ genToks fwd samp prompt n)).enum,
        p ∉ samplerInput fwd (prompt ++ genToks fwd samp prompt n) →
        ∀ pq ∈ samplerInput fwd (prompt ++ genToks fwd samp prompt n), p.2 ≤ pq.2) :=
  ⟨rfl, rfl, topK_length 512 _, topK_subset 512 _, topK_dominates 512 _⟩

set_option maxRecDepth 8000 in
/-- Witness for `topK512_pipeline` at a forward oracle producing 513 equal
logits at the initial step: entry (0, 0) is retained and reaches the
sampler (so by the subset conjunct it is among the forward output), entry
(512, 0) is among the forward output but cut off by the top-512
restriction, and its logit does not exceed the retained entry's. -/
theorem topK512_pipeline_witness :
    (((0 : Nat), (0 : ℚ)) ∈ ((fun _ : List Nat => List.replicate 513 (0:ℚ))
        (([] : List Nat) ++ genToks (fun _ => List.replicate 513 (0:ℚ)) (fun _ => 0) [] 0)).enum)
    ∧ (((512 : Nat), (0 : ℚ)) : Nat × ℚ).2 ≤ (((0 : Nat), (0 : ℚ)) : Nat × ℚ).2 :=
  ⟨(topK512_pipeline (fun _ => List.replicate 513 (0:ℚ)) (fun _ => 0) [] 0).2.2.2.1
      ((0 : Nat), (0 : ℚ)) (by decide),
   (topK512_pipeline (fun _ => List.replicate 513 (0:ℚ)) (fun _ => 0) [] 0).2.2.2.2
      ((512 : Nat), (0 : ℚ)) (by decide) (by decide) ((0 : Nat), (0 : ℚ)) (by decide)⟩

end KalosmLlama
